import Mathlib

/-!
# A verification development for a minimal sector-LISP interpreter

This file gives a shallow embedding of the interpreter's object memory and
evaluator, translated from the C source (`lisp.c`):

* LISP objects are signed integer handles (`Int`): a handle `< 0` is a cons
  cell indexing the heap, a handle `≥ 0` is an atom indexing the symbol table.
* The arena is modelled as a total function `Int → Int` addressed relative to
  the `symbol_table` base pointer (so heap slots live at negative indices and
  symbol bytes at non-negative indices), together with the heap allocation
  cursor `heap_ptr`, which decreases by two on each `cons`.
* Characters written by the printer are collected in an output list.
* The recursive procedures of the source (`assoc`, `pairlis`, `evlis`,
  `evcon`, `apply`, `eval`, `gc`, the printer) are not structurally
  terminating — they chase pointers through memory — so each takes a fuel
  argument and returns `none` when the fuel runs out.  Fuel is decremented at
  every recursive call.
* The external character source (`bestline` input, consumed only by the
  `READ` primitive) is declared out of scope by the specification; the `READ`
  branch of `apply` is the one place where the embedding returns `none`
  instead of modelling the collaborator.
-/

namespace SectorLisp

/-- Memory size of the arena, in 32-bit words (source: `MEMORY_SIZE`). -/
def MEMORY_SIZE : Int := 32768

/-- Built-in symbol handle for `NIL` (source: `SYMBOL_NIL`). -/
def SYMBOL_NIL : Int := 0

/-- Built-in symbol handle for `T` (source: `SYMBOL_T`). -/
def SYMBOL_T : Int := 4

/-- Built-in symbol handle for `QUOTE` (source: `SYMBOL_QUOTE`). -/
def SYMBOL_QUOTE : Int := 6

/-- Built-in symbol handle for `COND` (source: `SYMBOL_COND`). -/
def SYMBOL_COND : Int := 12

/-- Built-in symbol handle for `READ` (source: `SYMBOL_READ`). -/
def SYMBOL_READ : Int := 17

/-- Built-in symbol handle for `PRINT` (source: `SYMBOL_PRINT`). -/
def SYMBOL_PRINT : Int := 22

/-- Built-in symbol handle for `ATOM` (source: `SYMBOL_ATOM`). -/
def SYMBOL_ATOM : Int := 28

/-- Built-in symbol handle for `CAR` (source: `SYMBOL_CAR`). -/
def SYMBOL_CAR : Int := 33

/-- Built-in symbol handle for `CDR` (source: `SYMBOL_CDR`). -/
def SYMBOL_CDR : Int := 37

/-- Built-in symbol handle for `CONS` (source: `SYMBOL_CONS`). -/
def SYMBOL_CONS : Int := 41

/-- Built-in symbol handle for `EQ` (source: `SYMBOL_EQ`). -/
def SYMBOL_EQ : Int := 46

/-- The word contents of the `BUILTIN_SYMBOLS` string
`"NIL\0T\0QUOTE\0COND\0READ\0PRINT\0ATOM\0CAR\0CDR\0CONS\0EQ\0"`
copied into the symbol table by `main`, as character codes. -/
def builtinSyms : List Int :=
  [78, 73, 76, 0, 84, 0, 81, 85, 79, 84, 69, 0, 67, 79, 78, 68, 0,
   82, 69, 65, 68, 0, 80, 82, 73, 78, 84, 0, 65, 84, 79, 77, 0,
   67, 65, 82, 0, 67, 68, 82, 0, 67, 79, 78, 83, 0, 69, 81, 0]

/-- The arena contents right after `main` initialised the symbol table:
the built-in symbol bytes at non-negative indices, zero everywhere else
(the C arena is a zero-initialised static array). -/
def builtinMem (i : Int) : Int :=
  if 0 ≤ i then (builtinSyms.get? i.toNat).getD 0 else 0

/-- The machine state: the arena addressed relative to `symbol_table`
(`mem i` is `symbol_table[i]`), the heap allocation cursor `heap_ptr`, and
the characters written so far to the character sink. -/
structure St where
  mem : Int → Int
  hp : Int
  out : List Int

/-- `car` of a cons handle: reads the slot the handle points at
(source: `car`, `return symbol_table[obj];`). -/
def car (mem : Int → Int) (o : Int) : Int := mem o

/-- `cdr` of a cons handle: reads the following slot
(source: `cdr`, `return symbol_table[obj + 1];`). -/
def cdr (mem : Int → Int) (o : Int) : Int := mem (o + 1)

/-- Allocate a cons cell: the cursor moves down by two, the cdr lands in the
upper slot and the car in the lower slot, and the new (negative) cursor is
the handle (source: `cons`). -/
def cons (a d : Int) (st : St) : Int × St :=
  (st.hp - 2,
   ⟨fun i => if i = st.hp - 2 then a else if i = st.hp - 1 then d else st.mem i,
    st.hp - 2, st.out⟩)

/-- Association-list lookup (source: `assoc`).  Reads memory but never
writes, so it takes only the arena contents.  Returns `NIL` when the list is
exhausted, the bound value on a key match, and recurses on the tail
otherwise. -/
def assoc : Nat → Int → Int → (Int → Int) → Option Int
  | 0, _, _, _ => none
  | n + 1, key, alist, mem =>
    if alist = 0 then some 0
    else if key = car mem (car mem alist) then some (cdr mem (car mem alist))
    else assoc n key (cdr mem alist) mem

/-- Extend an environment by pairing keys with values (source: `pairlis`).
When the key list is `NIL` the environment is returned unchanged; otherwise
a pair `(car keys . car values)` is allocated and consed onto the recursive
result. -/
def pairlis : Nat → Int → Int → Int → St → Option (Int × St)
  | 0, _, _, _, _ => none
  | n + 1, keys, values, env, st =>
    if keys = 0 then some (env, st)
    else
      let pr := cons (car st.mem keys) (car st.mem values) st
      match pairlis n (cdr pr.2.mem keys) (cdr pr.2.mem values) env pr.2 with
      | none => none
      | some (rest, st2) => some (cons pr.1 rest st2)

/-- The recursive copy phase of the collector (source: `gc`).  A handle below
the mark is a cell allocated by the current evaluation: its car and cdr are
copied recursively, a fresh cell is allocated for the pair, and the handle
returned is the fresh handle plus the slide offset.  Anything at or above the
mark (in particular every atom) is returned unchanged. -/
def gc : Nat → Int → Int → Int → St → Option (Int × St)
  | 0, _, _, _, _ => none
  | n + 1, obj, mark, offset, st =>
    if obj < mark then
      match gc n (car st.mem obj) mark offset st with
      | none => none
      | some (a, st1) =>
        match gc n (cdr st1.mem obj) mark offset st1 with
        | none => none
        | some (d, st2) =>
          let pr := cons a d st2
          some (pr.1 + offset, pr.2)
    else some (obj, st)

/-- The word-by-word slide at the end of `eval`
(source: `while (final_heap_ptr < new_heap_ptr)
           symbol_table[--saved_heap_ptr] = symbol_table[--new_heap_ptr];`).
`k` counts the remaining iterations; `saved` and `new` are the two cursors. -/
def slideLoop : Nat → Int → Int → (Int → Int) → (Int → Int)
  | 0, _, _, m => m
  | k + 1, saved, nu, m =>
    slideLoop k (saved - 1) (nu - 1) (fun i => if i = saved - 1 then m (nu - 1) else m i)

/-- The per-eval collection protocol wrapped around the `COND`/application
branches of `eval` (source: `eval`, the lines from `new_heap_ptr = heap_ptr`
to `heap_ptr = saved_heap_ptr`): copy the result with `gc`, slide the copied
words down to the pre-mark, and reset the cursor. -/
def collect (n : Nat) (saved r : Int) (st : St) : Option (Int × St) :=
  let b := st.hp
  match gc n r saved (saved - b) st with
  | none => none
  | some (r2, st2) =>
    some (r2, ⟨slideLoop (b - st2.hp).toNat saved b st2.mem,
               saved - (b - st2.hp), st2.out⟩)

/-- Emit the characters of the symbol stored at a non-negative handle
(source: `print_atom`): read words upward from the handle until a zero
terminator. -/
def print_atom : Nat → (Int → Int) → Int → Option (List Int)
  | 0, _, _ => none
  | n + 1, m, o =>
    if m o = 0 then some []
    else (print_atom n m (o + 1)).map (fun cs => m o :: cs)

mutual

/-- Print an object (source: `print_object`): cons cells go to `print_list`,
atoms to `print_atom`. -/
def print_object : Nat → (Int → Int) → Int → Option (List Int)
  | 0, _, _ => none
  | n + 1, m, o =>
    if o < 0 then print_list n m o else print_atom n m o

/-- Print a list (source: `print_list`): an opening parenthesis (char 40),
the car, then the spine via `print_tail`. -/
def print_list : Nat → (Int → Int) → Int → Option (List Int)
  | 0, _, _ => none
  | n + 1, m, o =>
    match print_object n m (car m o), print_tail n m o with
    | some cs, some ds => some (40 :: cs ++ ds)
    | _, _ => none

/-- The `while ((obj = cdr(obj)) != 0)` loop of `print_list`: a `NIL` cdr
closes the list (char 41), a cons cdr prints a space (char 32) and the next
element, and an atom cdr prints the dotted-pair separator `∙` (char 8729),
the atom, and the closing parenthesis. -/
def print_tail : Nat → (Int → Int) → Int → Option (List Int)
  | 0, _, _ => none
  | n + 1, m, o =>
    if cdr m o = 0 then some [41]
    else if cdr m o < 0 then
      match print_object n m (car m (cdr m o)), print_tail n m (cdr m o) with
      | some cs, some ds => some (32 :: cs ++ ds)
      | _, _ => none
    else
      match print_object n m (cdr m o) with
      | some cs => some (8729 :: cs ++ [41])
      | none => none

end

mutual

/-- The evaluator (source: `eval`).  An atom is looked up with `assoc` (and
the state is untouched); a `QUOTE` form returns its argument unevaluated
(state untouched); otherwise the cursor is marked, the `COND` or application
branch runs, and the result goes through the `collect` protocol. -/
def eval : Nat → Int → Int → St → Option (Int × St)
  | 0, _, _, _ => none
  | n + 1, e, env, st =>
    if 0 ≤ e then
      match assoc n e env st.mem with
      | none => none
      | some v => some (v, st)
    else if car st.mem e = SYMBOL_QUOTE then
      some (car st.mem (cdr st.mem e), st)
    else
      let saved := st.hp
      let branch :=
        if car st.mem e = SYMBOL_COND then evcon n (cdr st.mem e) env st
        else
          let fn := car st.mem e
          match evlis n (cdr st.mem e) env st with
          | none => none
          | some (args, st1) => apply n fn args env st1
      match branch with
      | none => none
      | some (r, st2) => collect n saved r st2

/-- Apply a function object (source: `apply`).  A cons is treated as
`(LAMBDA params body)`: the parameters are bound with `pairlis` and the body
evaluated — the head of the cons is never read.  An atom above `EQ` is a
user name: it is evaluated and `apply` recurses.  Otherwise the exact handle
selects a primitive, and an unrecognised handle falls through to `NIL`.
The `READ` branch consumes the external character source, which the
specification leaves out of scope; it is the one unmodelled branch. -/
def apply : Nat → Int → Int → Int → St → Option (Int × St)
  | 0, _, _, _, _ => none
  | n + 1, fn, args, env, st =>
    if fn < 0 then
      let params := car st.mem (cdr st.mem fn)
      let body := car st.mem (cdr st.mem (cdr st.mem fn))
      match pairlis n params args env st with
      | none => none
      | some (env2, st2) => eval n body env2 st2
    else if SYMBOL_EQ < fn then
      match eval n fn env st with
      | none => none
      | some (f2, st1) => apply n f2 args env st1
    else if fn = SYMBOL_EQ then
      some (if car st.mem args = car st.mem (cdr st.mem args) then SYMBOL_T else 0, st)
    else if fn = SYMBOL_CONS then
      some (cons (car st.mem args) (car st.mem (cdr st.mem args)) st)
    else if fn = SYMBOL_ATOM then
      some (if car st.mem args < 0 then 0 else SYMBOL_T, st)
    else if fn = SYMBOL_CAR then
      some (car st.mem (car st.mem args), st)
    else if fn = SYMBOL_CDR then
      some (cdr st.mem (car st.mem args), st)
    else if fn = SYMBOL_READ then
      none
    else if fn = SYMBOL_PRINT then
      if args ≠ 0 then
        match print_object n st.mem (car st.mem args) with
        | none => none
        | some cs => some (0, ⟨st.mem, st.hp, st.out ++ cs⟩)
      else some (0, ⟨st.mem, st.hp, st.out ++ [10]⟩)
    else some (0, st)

/-- Evaluate a list of argument forms left to right (source: `evlis`). -/
def evlis : Nat → Int → Int → St → Option (Int × St)
  | 0, _, _, _ => none
  | n + 1, forms, env, st =>
    if forms = 0 then some (0, st)
    else
      match eval n (car st.mem forms) env st with
      | none => none
      | some (v, st1) =>
        match evlis n (cdr st1.mem forms) env st1 with
        | none => none
        | some (rest, st2) => some (cons v rest st2)

/-- Evaluate `COND` clauses in order (source: `evcon`): the first clause
whose test evaluates non-`NIL` selects its body. -/
def evcon : Nat → Int → Int → St → Option (Int × St)
  | 0, _, _, _ => none
  | n + 1, clauses, env, st =>
    match eval n (car st.mem (car st.mem clauses)) env st with
    | none => none
    | some (v, st1) =>
      if v ≠ 0 then eval n (car st1.mem (cdr st1.mem (car st1.mem clauses))) env st1
      else evcon n (cdr st1.mem clauses) env st1

end

/-! ## The symbol interner

`intern_symbol` walks the populated symbol region word by word, comparing the
staged token against each stored entry; a match returns the entry's starting
offset, and a miss appends the token (with its terminator) at the write
cursor.  The populated region is modelled as the list of its words; a read
past the end yields `0`, matching the zero-initialised C array.  The walk is
phrased on the suffix of the region starting at the current position, and
offsets are recovered as word counts. -/

/-- Read the word at the head of a region suffix; past the end the
zero-initialised arena yields `0`. -/
def tbHead : List Int → Int
  | [] => 0
  | c :: _ => c

/-- The inner comparison loop of `intern_symbol`: compare the token against
the entry beginning at the head of the suffix, byte by byte, terminator
included. -/
def matchAt : List Int → List Int → Bool
  | s, [] => tbHead s == 0
  | s, c :: cs => tbHead s == c && matchAt s.tail cs

/-- The skip loop of `intern_symbol` (`while (x != 0) x = symbol_table[i++];`):
the number of words from the current position to just past the entry's
terminator. -/
def skipEnt : List Int → Nat
  | [] => 1
  | c :: s => if c = 0 then 1 else skipEnt s + 1

/-- The outer search loop of `intern_symbol`: starting at the current
position, `.inl p` is a match `p` words in, `.inr p` reports the write
cursor (the first position holding `0`) `p` words in. -/
def searchTb : List Int → List Int → Nat ⊕ Nat
  | s, tok =>
    if h : tbHead s = 0 then .inr 0
    else if matchAt s tok then .inl 0
    else
      match searchTb (s.drop (skipEnt s)) tok with
      | .inl q => .inl (skipEnt s + q)
      | .inr q => .inr (skipEnt s + q)
  termination_by s _ => s.length
  decreasing_by
    simp only [List.length_drop]
    cases s with
    | nil => simp [tbHead] at h
    | cons c s' =>
      have : 1 ≤ skipEnt (c :: s') := by
        simp only [skipEnt]
        split <;> omega
      simp only [List.length_cons]
      omega

/-- Intern the staged token (source: `intern_symbol`): search the populated
region; on a match return the matching entry's offset and leave the region
unchanged; on a miss return the write cursor and store the token and its
terminator there. -/
def intern_symbol (tb tok : List Int) : Int × List Int :=
  match searchTb tb tok with
  | .inl p => ((p : Int), tb)
  | .inr p => ((p : Int), tb.take p ++ tok ++ [0] ++ tb.drop (p + tok.length + 1))

/-- A token as staged by the tokenizer: non-empty, with no zero word (the
tokenizer stores only characters above the space character and then the
terminator). -/
abbrev TokenOk (tok : List Int) : Prop := tok ≠ [] ∧ ∀ c ∈ tok, c ≠ 0

/-- The populated symbol region determined by a list of entries: each entry's
characters followed by its zero terminator, concatenated in order. -/
def concatEntries (es : List (List Int)) : List Int :=
  (es.map (fun e => e ++ [0])).flatten

/-- The built-in entries occupying the fixed prefix of the symbol table. -/
def builtinEntries : List (List Int) :=
  [[78, 73, 76], [84], [81, 85, 79, 84, 69], [67, 79, 78, 68],
   [82, 69, 65, 68], [80, 82, 73, 78, 84], [65, 84, 79, 77],
   [67, 65, 82], [67, 68, 82], [67, 79, 78, 83], [69, 81]]

/-! ## Abstract S-expressions

`Sexp` is the tree a handle denotes; `Decodes` relates a handle to its tree
in a given arena, recording that every cons cell of the tree lies at or
above a low-water mark (cells allocated since that mark). -/

/-- The abstract shape of a LISP object: an atom handle, or a pair. -/
inductive Sexp where
  | atom : Int → Sexp
  | pair : Sexp → Sexp → Sexp
deriving DecidableEq

/-- Number of cons cells in a shape. -/
def sexpSize : Sexp → Nat
  | .atom _ => 0
  | .pair a d => sexpSize a + sexpSize d + 1

/-- Nesting depth of a shape. -/
def sexpDepth : Sexp → Nat
  | .atom _ => 0
  | .pair a d => max (sexpDepth a) (sexpDepth d) + 1

/-- `Decodes mem lo o t`: in arena `mem`, handle `o` denotes the tree `t`,
and every cons cell of the tree lies at a handle in `[lo, 0)`. -/
inductive Decodes (mem : Int → Int) (lo : Int) : Int → Sexp → Prop where
  | atom (a : Int) : 0 ≤ a → Decodes mem lo a (.atom a)
  | pair (h : Int) (ta td : Sexp) :
      lo ≤ h → h < 0 →
      Decodes mem lo (car mem h) ta →
      Decodes mem lo (cdr mem h) td →
      Decodes mem lo h (.pair ta td)

/-- `CopyRel mem off lo hi r t`: `r` is the handle `gc` returned for a tree
of shape `t` whose fresh copy occupies cells in `[lo, hi)` of `mem`; the
stored child handles and `r` itself are already displaced by the slide
offset `off`. -/
inductive CopyRel (mem : Int → Int) (off lo hi : Int) : Int → Sexp → Prop where
  | atom (a : Int) : 0 ≤ a → CopyRel mem off lo hi a (.atom a)
  | pair (h : Int) (ta td : Sexp) :
      lo ≤ h → h + 2 ≤ hi →
      CopyRel mem off lo hi (car mem h) ta →
      CopyRel mem off lo hi (cdr mem h) td →
      CopyRel mem off lo hi (h + off) (.pair ta td)

/-- A proper, `NIL`-terminated association list in arena `mem`: the spine is
a chain of cons cells ending at `NIL`, each element is itself a cons, and
`ps` lists the key/value pairs in order. -/
inductive AList (mem : Int → Int) : Int → List (Int × Int) → Prop where
  | nil : AList mem 0 []
  | pair (a : Int) (ps : List (Int × Int)) :
      a < 0 → car mem a < 0 →
      AList mem (cdr mem a) ps →
      AList mem a ((car mem (car mem a), cdr mem (car mem a)) :: ps)

/-! ## Concrete arenas used by the witnesses -/

/-- An arena holding the form `(QUOTE T)` at handle `-4`: the cell at `-4`
is `(QUOTE . -2)` and the cell at `-2` is `(T . NIL)`. -/
def quoteMem : Int → Int := fun i =>
  if i = -4 then SYMBOL_QUOTE else if i = -3 then -2
  else if i = -2 then SYMBOL_T else if i = -1 then 0 else builtinMem i

/-- The state staging `(QUOTE T)` with the cursor below both cells. -/
def quoteSt : St := ⟨quoteMem, -4, []⟩

/-- An arena holding the one-element association list `((T . QUOTE))` at
handle `-2`: the spine cell `-2` is `(-4 . NIL)` and the element cell `-4`
is `(T . QUOTE)`. -/
def unboundMem : Int → Int := fun i =>
  if i = -4 then SYMBOL_T else if i = -3 then SYMBOL_QUOTE
  else if i = -2 then -4 else if i = -1 then 0 else builtinMem i

/-- An arena holding a three-element function object at handle `-4` whose
head is the (non-`LAMBDA`) atom `999`: the cells spell `(999 NIL NIL)`. -/
def lamMem : Int → Int := fun i =>
  if i = -6 then 0 else if i = -5 then 0
  else if i = -4 then 999 else if i = -3 then -2
  else if i = -2 then 0 else if i = -1 then -6 else builtinMem i

/-- The state staging the function object `(999 NIL NIL)`. -/
def lamSt : St := ⟨lamMem, -6, []⟩

/-- An arena holding the one-element argument list `(T)` at handle `-2`. -/
def printArgMem : Int → Int := fun i =>
  if i = -2 then SYMBOL_T else if i = -1 then 0 else builtinMem i

/-- The state staging the argument list `(T)`. -/
def printArgSt : St := ⟨printArgMem, -2, []⟩

/-- The pristine top-level state: built-in symbols only, cursor at the
midpoint, nothing printed. -/
def topSt : St := ⟨builtinMem, 0, []⟩

/-- An arena as left by a top-level evaluation that produced the result
`(T . NIL)` at handle `-2` after also allocating a transient cell at `-4`:
the live cell `-2` is `(T . NIL)` and the garbage cell `-4` is `(QUOTE . QUOTE)`. -/
def gcMem : Int → Int := fun i =>
  if i = -4 then SYMBOL_QUOTE else if i = -3 then SYMBOL_QUOTE
  else if i = -2 then SYMBOL_T else if i = -1 then 0 else builtinMem i

/-- The post-evaluation state with result `(T . NIL)` at `-2` and the
cursor below the transient cell. -/
def gcSt : St := ⟨gcMem, -4, []⟩

/-! # Theorems -/

/-- Claim C2: for all objects `x` and `y`, `car (cons x y) = x` and
`cdr (cons x y) = y`, provided the heap is not exhausted (the two fresh
slots still lie inside the heap half of the arena). -/
theorem car_cdr_law (x y : Int) (st : St)
    (hroom : -(MEMORY_SIZE / 2) ≤ st.hp - 2) :
    car (cons x y st).2.mem (cons x y st).1 = x ∧
    cdr (cons x y st).2.mem (cons x y st).1 = y := by
  constructor
  · simp [car, cons]
  · simp only [cdr, cons]
    rw [if_neg (by omega), if_pos (by omega)]

/-- Witness for C2 at `x = T`, `y = QUOTE` in the pristine state. -/
theorem car_cdr_law_wit :
    (-(MEMORY_SIZE / 2) ≤ topSt.hp - 2) ∧
    (car (cons 4 6 topSt).2.mem (cons 4 6 topSt).1 = 4 ∧
     cdr (cons 4 6 topSt).2.mem (cons 4 6 topSt).1 = 6) :=
  ⟨by decide, car_cdr_law 4 6 topSt (by decide)⟩

/-- Claim C9: `pairlis` with an exhausted (`NIL`) key list returns the
environment unchanged, whatever values remain. -/
theorem pairlis_nil_keys (n : Nat) (v env : Int) (st : St) :
    pairlis (n + 1) 0 v env st = some (env, st) := by
  simp [pairlis]

/-- Claim C3: `eval` of a cons whose car is `QUOTE` returns `car (cdr e)`
unevaluated, with the arena, cursor and output untouched (the collection
protocol is not entered). -/
theorem eval_quote (n : Nat) (e env : Int) (st : St)
    (hc : e < 0) (hq : car st.mem e = SYMBOL_QUOTE) :
    eval (n + 1) e env st = some (car st.mem (cdr st.mem e), st) := by
  simp only [eval]
  rw [if_neg (by omega), if_pos hq]

/-- Witness for C3: evaluating the staged `(QUOTE T)` returns the atom `T`
and the state unchanged. -/
theorem eval_quote_wit :
    ((-4 : Int) < 0) ∧ eval 1 (-4) 0 quoteSt = some (SYMBOL_T, quoteSt) :=
  ⟨by decide, eval_quote 0 (-4) 0 quoteSt (by decide) (by decide)⟩

/-- Claim C10: `eval` of an atom is exactly the `assoc` lookup, and the
state — arena contents, heap cursor and output — is returned unchanged;
nothing is allocated or written. -/
theorem eval_atom_frame (n : Nat) (e env : Int) (st : St) (he : 0 ≤ e) :
    eval (n + 1) e env st = (assoc n e env st.mem).map (fun v => (v, st)) := by
  simp only [eval, if_pos he]
  cases assoc n e env st.mem <;> simp

/-- Witness for C10: looking up the unbound atom `T` in the empty
environment of the pristine state. -/
theorem eval_atom_frame_wit :
    ((0 : Int) ≤ 4) ∧
    eval 2 4 0 topSt = (assoc 1 4 0 topSt.mem).map (fun v => (v, topSt)) :=
  ⟨by decide, eval_atom_frame 1 4 0 topSt (by decide)⟩

/-- Claim C7: `apply` of any cons `f` — regardless of the atom at its head,
which is never read — binds `car (cdr f)` against the arguments with
`pairlis` and evaluates `car (cdr (cdr f))` in the extended environment. -/
theorem apply_cons_as_lambda (n : Nat) (f x env : Int) (st : St) (hf : f < 0) :
    apply (n + 1) f x env st =
      match pairlis n (car st.mem (cdr st.mem f)) x env st with
      | none => none
      | some (env2, st2) =>
        eval n (car st.mem (cdr st.mem (cdr st.mem f))) env2 st2 := by
  simp only [apply, if_pos hf]

/-- Witness for C7: applying the staged `(999 NIL NIL)` — a function object
whose head is not `LAMBDA` — still dispatches to the `pairlis`/`eval` path. -/
theorem apply_cons_as_lambda_wit :
    ((-4 : Int) < 0) ∧
    apply 2 (-4) 0 0 lamSt =
      (match pairlis 1 (car lamSt.mem (cdr lamSt.mem (-4))) 0 0 lamSt with
       | none => none
       | some (env2, st2) =>
         eval 1 (car lamSt.mem (cdr lamSt.mem (cdr lamSt.mem (-4)))) env2 st2) :=
  ⟨by decide, apply_cons_as_lambda 1 (-4) 0 0 lamSt (by decide)⟩

/-- Claim C8: applying `PRINT` to one argument appends that argument's
printed characters to the output and returns `NIL`; applying `PRINT` to no
arguments appends a newline (character 10) and returns `NIL`. -/
theorem apply_print (n : Nat) (args env : Int) (st : St) (cs : List Int)
    (hargs : args < 0)
    (hpr : print_object n st.mem (car st.mem args) = some cs) :
    apply (n + 1) SYMBOL_PRINT args env st =
      some (0, ⟨st.mem, st.hp, st.out ++ cs⟩) ∧
    apply (n + 1) SYMBOL_PRINT 0 env st =
      some (0, ⟨st.mem, st.hp, st.out ++ [10]⟩) := by
  have hne : args ≠ 0 := by omega
  constructor
  · simp only [apply]
    norm_num [SYMBOL_PRINT, SYMBOL_EQ, SYMBOL_CONS, SYMBOL_ATOM, SYMBOL_CAR,
              SYMBOL_CDR, SYMBOL_READ, hne, hpr]
  · simp only [apply]
    norm_num [SYMBOL_PRINT, SYMBOL_EQ, SYMBOL_CONS, SYMBOL_ATOM, SYMBOL_CAR,
              SYMBOL_CDR, SYMBOL_READ]

/-- Witness for C8: printing the argument list `(T)` emits the characters
of `T` (code 84); printing with no arguments emits a newline. -/
theorem apply_print_wit :
    ((-2 : Int) < 0) ∧
    (print_object 3 printArgSt.mem (car printArgSt.mem (-2)) = some [84]) ∧
    (apply 4 SYMBOL_PRINT (-2) 0 printArgSt =
       some (0, ⟨printArgSt.mem, printArgSt.hp, printArgSt.out ++ [84]⟩) ∧
     apply 4 SYMBOL_PRINT 0 0 printArgSt =
       some (0, ⟨printArgSt.mem, printArgSt.hp, printArgSt.out ++ [10]⟩)) :=
  ⟨by decide, by decide, apply_print 3 (-2) 0 printArgSt [84] (by decide) (by decide)⟩

/-- Counterexample to claim C6: in this source, `apply` of `NIL` does not
recurse and does not loop — `NIL` fails every dispatch test and reaches the
final `return 0`, so the call terminates at once (already with fuel 1),
returning `NIL` with the state untouched. -/
theorem apply_nil_terminates :
    apply 1 0 0 0 topSt = some (0, topSt) ∧
    ¬ (∀ n : Nat, apply n 0 0 0 topSt = none) := by
  have h1 : apply 1 0 0 0 topSt = some (0, topSt) := by
    norm_num [apply, SYMBOL_EQ, SYMBOL_CONS, SYMBOL_ATOM, SYMBOL_CAR,
              SYMBOL_CDR, SYMBOL_READ, SYMBOL_PRINT]
  refine ⟨h1, fun h => ?_⟩
  have h2 := h 1
  rw [h1] at h2
  exact Option.noConfusion h2

/-- Claim C6 as amended: `apply (NIL, x, a)` falls through every dispatch
test (`NIL` is not a cons, is not greater than `EQ`, and equals no primitive
handle) and immediately returns `NIL` with the state unchanged; it neither
recurses nor diverges. -/
theorem apply_nil_returns_nil (n : Nat) (x env : Int) (st : St) :
    apply (n + 1) 0 x env st = some (0, st) := by
  norm_num [apply, SYMBOL_EQ, SYMBOL_CONS, SYMBOL_ATOM, SYMBOL_CAR,
            SYMBOL_CDR, SYMBOL_READ, SYMBOL_PRINT]

/-- Counterexample to claim C5: looking up the unbound key `CAR` in the
non-empty proper association list `((T . QUOTE))` returns `NIL` — the
`alist == 0` guard fires at the recursive call, not only when the initial
list is empty, and `NIL` is never dereferenced. -/
theorem assoc_unbound_ce :
    assoc 2 SYMBOL_CAR (-2) unboundMem = some 0 ∧ ((-2 : Int) ≠ 0) := by
  exact ⟨by decide, by decide⟩

/-- Claim C5 as amended: for every atom key not bound in a proper
(`NIL`-terminated) association list, `assoc` recurses down the spine and
returns `NIL` when the remaining list becomes empty; the empty-list guard
fires at every level, so no `NIL` dereference occurs. -/
theorem assoc_unbound (mem : Int → Int) (a k : Int) (ps : List (Int × Int))
    (h : AList mem a ps) (hk : ∀ p ∈ ps, p.1 ≠ k) (n : Nat)
    (hn : ps.length < n) :
    assoc n k a mem = some 0 := by
  induction h generalizing n with
  | nil =>
    obtain ⟨m, rfl⟩ : ∃ m, n = m + 1 := ⟨n - 1, by omega⟩
    simp [assoc]
  | pair a ps ha hca htail ih =>
    obtain ⟨m, rfl⟩ : ∃ m, n = m + 1 := ⟨n - 1, by omega⟩
    have hne : a ≠ 0 := by omega
    have hkey : k ≠ car mem (car mem a) := by
      have := hk (car mem (car mem a), cdr mem (car mem a)) (by simp)
      exact fun hh => this hh.symm
    simp only [assoc, if_neg hne, if_neg hkey]
    exact ih (fun p hp => hk p (List.mem_cons_of_mem _ hp)) m (by simp at hn; omega)

/-- Witness for the amended C5: the unbound key `CDR` against the staged
one-element association list. -/
theorem assoc_unbound_wit : assoc 2 SYMBOL_CDR (-2) unboundMem = some 0 := by
  have halist : AList unboundMem (-2) [(4, 6)] := by
    have h0 : AList unboundMem (cdr unboundMem (-2)) [] := by
      have hz : cdr unboundMem (-2) = 0 := by decide
      rw [hz]; exact AList.nil
    exact AList.pair (-2) [] (by decide) (by decide) h0
  exact assoc_unbound unboundMem (-2) SYMBOL_CDR [(4, 6)] halist (by decide) 2 (by decide)

/-! ## The interner keeps handles in bijection with token spellings (C4) -/

theorem concatEntries_cons (e : List Int) (es : List (List Int)) :
    concatEntries (e :: es) = e ++ 0 :: concatEntries es := by
  simp [concatEntries]

theorem concatEntries_append (es1 es2 : List (List Int)) :
    concatEntries (es1 ++ es2) = concatEntries es1 ++ concatEntries es2 := by
  simp [concatEntries]

theorem concatEntries_eq_nil {es : List (List Int)} :
    concatEntries es = [] ↔ es = [] := by
  cases es with
  | nil => simp [concatEntries]
  | cons e es' => simp [concatEntries_cons]

/-- The inner comparison loop matches the entry at the head of the suffix
exactly when the token spells that entry. -/
theorem matchAt_entry : ∀ (tok e rest : List Int), (∀ c ∈ e, c ≠ 0) →
    (∀ c ∈ tok, c ≠ 0) → (matchAt (e ++ 0 :: rest) tok = true ↔ tok = e) := by
  intro tok
  induction tok with
  | nil =>
    intro e rest he _
    cases e with
    | nil => simp [matchAt, tbHead]
    | cons c e' =>
      have hc : c ≠ 0 := he c (by simp)
      simp [matchAt, tbHead, hc]
  | cons c cs ih =>
    intro e rest he ht
    have hc : c ≠ 0 := ht c (by simp)
    cases e with
    | nil =>
      simp [matchAt, tbHead, Bool.and_eq_true, beq_iff_eq, Ne.symm hc]
    | cons d e' =>
      have he' : ∀ x ∈ e', x ≠ 0 := fun x hx => he x (List.mem_cons_of_mem _ hx)
      have ht' : ∀ x ∈ cs, x ≠ 0 := fun x hx => ht x (List.mem_cons_of_mem _ hx)
      have ihe := ih e' rest he' ht'
      by_cases hdc : d = c
      · simp [matchAt, tbHead, List.cons_append, Bool.and_eq_true, beq_iff_eq,
              hdc, ihe]
      · simp [matchAt, tbHead, List.cons_append, Bool.and_eq_true, beq_iff_eq,
              hdc, Ne.symm hdc]

/-- The skip loop steps over exactly one stored entry and its terminator. -/
theorem skipEnt_entry : ∀ (e rest : List Int), (∀ c ∈ e, c ≠ 0) →
    skipEnt (e ++ 0 :: rest) = e.length + 1 := by
  intro e
  induction e with
  | nil => intro rest _; simp [skipEnt]
  | cons c e' ih =>
    intro rest he
    have hc : c ≠ 0 := he c (by simp)
    have := ih rest (fun x hx => he x (List.mem_cons_of_mem _ hx))
    simp [skipEnt, hc, this]

theorem drop_entry (e rest : List Int) :
    (e ++ 0 :: rest).drop (e.length + 1) = rest := by
  have h1 : e ++ 0 :: rest = (e ++ [0]) ++ rest := by simp
  have h2 : (e ++ [0]).length = e.length + 1 := by simp
  rw [h1, ← h2, List.drop_left]

/-- The outer search loop finds the first entry spelling the token, at that
entry's word offset. -/
theorem searchTb_found : ∀ (pre post : List (List Int)) (tok : List Int),
    (∀ e ∈ pre, TokenOk e) → TokenOk tok → tok ∉ pre →
    searchTb (concatEntries (pre ++ tok :: post)) tok =
      .inl (concatEntries pre).length := by
  intro pre
  induction pre with
  | nil =>
    intro post tok _ htok _
    obtain ⟨hne, hnz⟩ := htok
    rw [List.nil_append, concatEntries_cons, searchTb]
    cases tok with
    | nil => exact absurd rfl hne
    | cons c cs =>
      have hc : c ≠ 0 := hnz c (by simp)
      rw [dif_neg (by simp [tbHead, List.cons_append, hc])]
      rw [if_pos ((matchAt_entry (c :: cs) (c :: cs) (concatEntries post)
            (fun x hx => hnz x hx) (fun x hx => hnz x hx)).mpr rfl)]
      simp [concatEntries]
  | cons e pre' ih =>
    intro post tok hpre htok hnot
    have hetok : TokenOk e := hpre e (by simp)
    obtain ⟨hene, henz⟩ := hetok
    have hne_tok_e : tok ≠ e := fun h => hnot (by simp [h])
    rw [List.cons_append, concatEntries_cons, searchTb]
    cases e with
    | nil => exact absurd rfl hene
    | cons d e'' =>
      have hd : d ≠ 0 := henz d (by simp)
      rw [dif_neg (by simp [tbHead, List.cons_append, hd])]
      rw [if_neg (by
            rw [matchAt_entry tok (d :: e'') (concatEntries (pre' ++ tok :: post))
                  henz htok.2]
            exact hne_tok_e)]
      rw [skipEnt_entry (d :: e'') _ henz, drop_entry (d :: e'') _]
      rw [ih post tok (fun x hx => hpre x (List.mem_cons_of_mem _ hx)) htok
            (fun h => hnot (List.mem_cons_of_mem _ h))]
      simp [concatEntries_cons]
      omega

/-- When no entry spells the token, the outer search loop reaches the write
cursor at the end of the populated region. -/
theorem searchTb_missing : ∀ (es : List (List Int)) (tok : List Int),
    (∀ e ∈ es, TokenOk e) → TokenOk tok → tok ∉ es →
    searchTb (concatEntries es) tok = .inr (concatEntries es).length := by
  intro es
  induction es with
  | nil =>
    intro tok _ _ _
    rw [searchTb]
    simp [concatEntries, tbHead]
  | cons e es' ih =>
    intro tok hes htok hnot
    have hetok : TokenOk e := hes e (by simp)
    obtain ⟨hene, henz⟩ := hetok
    have hne_tok_e : tok ≠ e := fun h => hnot (by simp [h])
    rw [concatEntries_cons, searchTb]
    cases e with
    | nil => exact absurd rfl hene
    | cons d e'' =>
      have hd : d ≠ 0 := henz d (by simp)
      rw [dif_neg (by simp [tbHead, List.cons_append, hd])]
      rw [if_neg (by
            rw [matchAt_entry tok (d :: e'') (concatEntries es') henz htok.2]
            exact hne_tok_e)]
      rw [skipEnt_entry (d :: e'') _ henz, drop_entry (d :: e'') _]
      rw [ih tok (fun x hx => hes x (List.mem_cons_of_mem _ hx)) htok
            (fun h => hnot (List.mem_cons_of_mem _ h))]
      simp [concatEntries_cons]
      omega

/-- `intern_symbol` on a well-formed region containing the token: the handle
is the offset of the token's first stored occurrence and the region is
unchanged. -/
theorem intern_found (pre post : List (List Int)) (tok : List Int)
    (hpre : ∀ e ∈ pre, TokenOk e) (htok : TokenOk tok) (hnot : tok ∉ pre) :
    intern_symbol (concatEntries (pre ++ tok :: post)) tok =
      (((concatEntries pre).length : Int), concatEntries (pre ++ tok :: post)) := by
  unfold intern_symbol
  rw [searchTb_found pre post tok hpre htok hnot]

/-- `intern_symbol` on a well-formed region missing the token: the handle is
the write cursor and the token is appended as a fresh entry. -/
theorem intern_missing (es : List (List Int)) (tok : List Int)
    (hes : ∀ e ∈ es, TokenOk e) (htok : TokenOk tok) (hnot : tok ∉ es) :
    intern_symbol (concatEntries es) tok =
      (((concatEntries es).length : Int), concatEntries (es ++ [tok])) := by
  unfold intern_symbol
  rw [searchTb_missing es tok hes htok hnot]
  have hdrop : (concatEntries es).drop ((concatEntries es).length + tok.length + 1) = [] := by
    apply List.drop_eq_nil_of_le
    omega
  simp only [List.take_length, hdrop, List.append_nil, Prod.mk.injEq, true_and]
  rw [concatEntries_append, concatEntries_cons]
  simp [concatEntries]

/-- Every element of a list splits off at its first occurrence. -/
theorem first_split {α : Type} [DecidableEq α] (a : α) :
    ∀ l : List α, a ∈ l → ∃ p q, l = p ++ a :: q ∧ a ∉ p := by
  intro l
  induction l with
  | nil => intro h; cases h
  | cons x xs ih =>
    intro h
    by_cases hx : x = a
    · exact ⟨[], xs, by simp [hx], by simp⟩
    · have hmem : a ∈ xs := by
        cases h with
        | head => exact absurd rfl hx
        | tail _ h2 => exact h2
      obtain ⟨p, q, hpq, hnp⟩ := ih hmem
      refine ⟨x :: p, q, by simp [hpq], ?_⟩
      simp only [List.mem_cons, not_or]
      exact ⟨fun h2 => hx h2.symm, hnp⟩

/-- First-occurrence splits are unique. -/
theorem first_split_unique {α : Type} (a : α) (p q p' q' : List α)
    (h : p ++ a :: q = p' ++ a :: q') (hp : a ∉ p) (hp' : a ∉ p') :
    p = p' := by
  rcases List.append_eq_append_iff.mp h with ⟨m, hm1, hm2⟩ | ⟨m, hm1, hm2⟩
  · cases m with
    | nil => simp at hm1; exact hm1.symm
    | cons x m' =>
      simp only [List.cons_append] at hm2
      injection hm2 with hax _
      exact absurd (by rw [hm1, ← hax]; simp : a ∈ p') hp'
  · cases m with
    | nil => simp at hm1; exact hm1
    | cons x m' =>
      simp only [List.cons_append] at hm2
      injection hm2 with hax _
      exact absurd (by rw [hm1, ← hax]; simp : a ∈ p) hp

/-- Distinct entries start at distinct offsets: equal prefix lengths of the
same entry list force equal prefixes. -/
theorem offset_inj (p1 q1 p2 q2 : List (List Int)) (s t : List Int)
    (h : p1 ++ s :: q1 = p2 ++ t :: q2)
    (hlen : (concatEntries p1).length = (concatEntries p2).length) : s = t := by
  rcases List.append_eq_append_iff.mp h with ⟨m, hm1, hm2⟩ | ⟨m, hm1, hm2⟩
  · have hm : m = [] := by
      have := congrArg (fun l => (concatEntries l).length) hm1
      simp only [concatEntries_append, List.length_append] at this
      rw [← concatEntries_eq_nil]
      have hz : (concatEntries m).length = 0 := by omega
      exact List.length_eq_zero.mp hz
    subst hm
    simp at hm2
    exact hm2.1
  · have hm : m = [] := by
      have := congrArg (fun l => (concatEntries l).length) hm1
      simp only [concatEntries_append, List.length_append] at this
      rw [← concatEntries_eq_nil]
      have hz : (concatEntries m).length = 0 := by omega
      exact List.length_eq_zero.mp hz
    subst hm
    simp at hm2
    exact hm2.1.symm

/-- An entry's offset is strictly below the region's total length. -/
theorem offset_lt_total (p q : List (List Int)) (s : List Int) :
    (concatEntries p).length < (concatEntries (p ++ s :: q)).length := by
  rw [concatEntries_append, concatEntries_cons]
  simp

/-- Claim C4: over any well-formed symbol region extending the built-in
prefix, two successive `intern_symbol` calls return equal handles exactly
when the two tokens are byte-wise equal. -/
theorem intern_identity (es : List (List Int)) (s t : List Int)
    (hes : ∀ e ∈ es, TokenOk e)
    (hpre : ∃ rest, es = builtinEntries ++ rest)
    (hs : TokenOk s) (ht : TokenOk t) :
    (intern_symbol (concatEntries es) s).1 =
      (intern_symbol ((intern_symbol (concatEntries es) s).2) t).1 ↔ s = t := by
  clear hpre
  -- the state after the first call: s is present, at a known first offset
  obtain ⟨es1, p, q, hsplit, hnp, hes1, hfst, hsnd⟩ :
      ∃ (es1 p q : List (List Int)),
        es1 = p ++ s :: q ∧ s ∉ p ∧ (∀ e ∈ es1, TokenOk e) ∧
        (intern_symbol (concatEntries es) s).1 = ((concatEntries p).length : Int) ∧
        (intern_symbol (concatEntries es) s).2 = concatEntries es1 := by
    by_cases hin : s ∈ es
    · obtain ⟨p, q, hpq, hnp⟩ := first_split s es hin
      refine ⟨es, p, q, hpq, hnp, hes, ?_, ?_⟩
      · rw [hpq, intern_found p q s (fun e he => hes e (by rw [hpq]; exact List.mem_append_left _ he)) hs hnp]
      · rw [hpq, intern_found p q s (fun e he => hes e (by rw [hpq]; exact List.mem_append_left _ he)) hs hnp]
    · refine ⟨es ++ [s], es, [], rfl, hin, ?_, ?_, ?_⟩
      · intro e he
        rcases List.mem_append.mp he with h1 | h1
        · exact hes e h1
        · rw [List.mem_singleton.mp h1]; exact hs
      · rw [intern_missing es s hes hs hin]
      · rw [intern_missing es s hes hs hin]
  rw [hfst, hsnd]
  by_cases hin1 : t ∈ es1
  · obtain ⟨p', q', hpq', hnp'⟩ := first_split t es1 hin1
    rw [hpq', intern_found p' q' t (fun e he => hes1 e (by rw [hpq']; exact List.mem_append_left _ he)) ht hnp']
    show ((concatEntries p).length : Int) = ((concatEntries p').length : Int) ↔ s = t
    constructor
    · intro heq
      have hlen : (concatEntries p).length = (concatEntries p').length := by
        exact_mod_cast heq
      exact offset_inj p q p' q' s t (by rw [← hsplit, ← hpq']) hlen
    · intro heq
      subst heq
      have : p = p' := first_split_unique s p q p' q' (by rw [← hsplit, ← hpq']) hnp hnp'
      rw [this]
  · rw [intern_missing es1 t hes1 ht hin1]
    show ((concatEntries p).length : Int) = ((concatEntries es1).length : Int) ↔ s = t
    have hne : s ≠ t := fun h => hin1 (h ▸ (hsplit ▸ (by simp : s ∈ p ++ s :: q)))
    simp only [hne, iff_false]
    intro heq
    have hlen : (concatEntries p).length = (concatEntries es1).length := by
      exact_mod_cast heq
    have := offset_lt_total p q s
    rw [← hsplit] at this
    omega

/-! ## The per-eval collector preserves the result (C1)

The proof follows the collector's three phases.  `slideLoop_eq` characterises
the word-by-word slide as a uniform shift of a block.  `gc_spec` shows, by
induction on the result's shape, that the copy phase allocates exactly one
fresh cell per pair of the shape, writes only below the post-mark, and leaves
a copy related to the original by `CopyRel` (fresh cells in a known range,
stored handles pre-displaced by the slide offset).  `CopyRel_decodes` then
shows the slid copy decodes to the original shape, and the printer
congruence lemmas transport the printed characters. -/

theorem slideLoop_eq : ∀ (k : Nat) (a b : Int) (m : Int → Int), b ≤ a → ∀ i,
    slideLoop k a b m i =
      if a - (k : Int) ≤ i ∧ i < a then m (i - (a - b)) else m i := by
  intro k
  induction k with
  | zero =>
    intro a b _ _ i
    rw [slideLoop, if_neg (by omega)]
  | succ k ih =>
    intro a b m hba i
    show slideLoop k (a - 1) (b - 1) (fun j => if j = a - 1 then m (b - 1) else m j) i = _
    rw [ih (a - 1) (b - 1) (fun j => if j = a - 1 then m (b - 1) else m j) (by omega) i]
    show (if a - 1 - (k : Int) ≤ i ∧ i < a - 1 then
            if i - (a - 1 - (b - 1)) = a - 1 then m (b - 1) else m (i - (a - 1 - (b - 1)))
          else if i = a - 1 then m (b - 1) else m i) = _
    split_ifs <;>
      first
        | rfl
        | (exfalso; omega)
        | (congr 1; omega)

theorem Decodes_mono (mem mem' : Int → Int) (lo lo' o : Int) (t : Sexp)
    (h : Decodes mem lo o t) (hlo : lo' ≤ lo)
    (hfr : ∀ i, lo ≤ i → mem' i = mem i) : Decodes mem' lo' o t := by
  induction h with
  | atom a ha => exact .atom a ha
  | pair h2 ta td hl2 hneg _ _ iha ihd =>
    refine .pair h2 ta td (by omega) hneg ?_ ?_
    · rw [show car mem' h2 = car mem h2 from hfr h2 hl2]
      exact iha
    · rw [show cdr mem' h2 = cdr mem h2 from hfr (h2 + 1) (by omega)]
      exact ihd

theorem CopyRel_mono (mem mem' : Int → Int) (off lo hi lo' hi' r : Int) (t : Sexp)
    (h : CopyRel mem off lo hi r t) (hlo : lo' ≤ lo) (hhi : hi ≤ hi')
    (hfr : ∀ i, lo ≤ i → i < hi → mem' i = mem i) :
    CopyRel mem' off lo' hi' r t := by
  induction h with
  | atom a ha => exact .atom a ha
  | pair h2 ta td hl hh _ _ iha ihd =>
    refine .pair h2 ta td (by omega) (by omega) ?_ ?_
    · rw [show car mem' h2 = car mem h2 from hfr h2 hl (by omega)]
      exact iha
    · rw [show cdr mem' h2 = cdr mem h2 from hfr (h2 + 1) (by omega) (by omega)]
      exact ihd

/-- The copy phase of the collector, at top level (mark `0`): it succeeds on
any decodable result, lowers the cursor by exactly two words per pair of the
shape, writes nothing at or above the entry cursor, and leaves a copy
`CopyRel`-related to the shape. -/
theorem gc_spec (t : Sexp) :
    ∀ (n : Nat) (r off : Int) (st : St),
      Decodes st.mem st.hp r t → sexpDepth t < n →
      ∃ r2 st2, gc n r 0 off st = some (r2, st2) ∧
        st2.hp = st.hp - 2 * (sexpSize t : Int) ∧
        st2.out = st.out ∧
        (∀ i, st.hp ≤ i → st2.mem i = st.mem i) ∧
        CopyRel st2.mem off st2.hp st.hp r2 t := by
  induction t with
  | atom a =>
    intro n r off st hd hn
    obtain ⟨m, rfl⟩ : ∃ m, n = m + 1 := ⟨n - 1, by omega⟩
    cases hd with
    | atom _ ha =>
      refine ⟨a, st, ?_, by simp [sexpSize], rfl, fun i _ => rfl, .atom a ha⟩
      simp only [gc]
      rw [if_neg (by omega)]
  | pair ta td iha ihd =>
    intro n r off st hd hn
    obtain ⟨m, rfl⟩ : ∃ m, n = m + 1 := ⟨n - 1, by omega⟩
    cases hd with
    | pair _ _ _ hlo hneg hca hcd =>
      have hna : sexpDepth ta < m := by simp [sexpDepth] at hn; omega
      have hnd : sexpDepth td < m := by simp [sexpDepth] at hn; omega
      obtain ⟨ra, st1, hgca, hhp1, hout1, hfr1, hcr1⟩ :=
        iha m (car st.mem r) off st hca hna
      have hle1 : st1.hp ≤ st.hp := by
        rw [hhp1]; omega
      have hcd1 : Decodes st1.mem st1.hp (cdr st1.mem r) td := by
        rw [show cdr st1.mem r = cdr st.mem r from hfr1 (r + 1) (by omega)]
        exact Decodes_mono st.mem st1.mem st.hp st1.hp _ td hcd hle1 hfr1
      obtain ⟨rd, st2, hgcd, hhp2, hout2, hfr2, hcr2⟩ :=
        ihd m (cdr st1.mem r) off st1 hcd1 hnd
      have hle2 : st2.hp ≤ st1.hp := by
        rw [hhp2]; omega
      refine ⟨(cons ra rd st2).1 + off, (cons ra rd st2).2, ?_, ?_, ?_, ?_, ?_⟩
      · simp only [gc]
        rw [if_pos (by omega : r < 0), hgca]
        show (match gc m (cdr st1.mem r) 0 off st1 with
              | none => none
              | some (d, stx) => some ((cons ra d stx).1 + off, (cons ra d stx).2)) = _
        rw [hgcd]
      · show st2.hp - 2 = st.hp - 2 * ((sexpSize (ta.pair td) : Nat) : Int)
        rw [hhp2, hhp1]
        simp only [sexpSize]
        push_cast
        ring
      · show st2.out = st.out
        rw [hout2, hout1]
      · intro i hi
        show (if i = st2.hp - 2 then ra else if i = st2.hp - 1 then rd else st2.mem i)
          = st.mem i
        rw [if_neg (by omega), if_neg (by omega)]
        rw [hfr2 i (by omega), hfr1 i hi]
      · have hwa : (cons ra rd st2).2.mem (st2.hp - 2) = ra := by
          show (if st2.hp - 2 = st2.hp - 2 then ra
                else if st2.hp - 2 = st2.hp - 1 then rd else st2.mem (st2.hp - 2)) = ra
          rw [if_pos rfl]
        have hwd : cdr (cons ra rd st2).2.mem (st2.hp - 2) = rd := by
          show (if st2.hp - 2 + 1 = st2.hp - 2 then ra
                else if st2.hp - 2 + 1 = st2.hp - 1 then rd
                else st2.mem (st2.hp - 2 + 1)) = rd
          rw [if_neg (by omega), if_pos (by omega)]
        have hfrc : ∀ i, st2.hp ≤ i → (cons ra rd st2).2.mem i = st2.mem i := by
          intro i hi
          show (if i = st2.hp - 2 then ra else if i = st2.hp - 1 then rd else st2.mem i)
            = st2.mem i
          rw [if_neg (by omega), if_neg (by omega)]
        have hca2 : CopyRel (cons ra rd st2).2.mem off (st2.hp - 2) st.hp ra ta := by
          refine CopyRel_mono st1.mem _ off st1.hp st.hp (st2.hp - 2) st.hp ra ta hcr1
            (by omega) le_rfl ?_
          intro i hi _
          rw [hfrc i (by omega), hfr2 i hi]
        have hcd2 : CopyRel (cons ra rd st2).2.mem off (st2.hp - 2) st.hp rd td := by
          refine CopyRel_mono st2.mem _ off st2.hp st1.hp (st2.hp - 2) st.hp rd td hcr2
            (by omega) (by omega) ?_
          intro i hi _
          rw [hfrc i hi]
        have hpair := @CopyRel.pair (cons ra rd st2).2.mem off
          (st2.hp - 2) st.hp (st2.hp - 2) ta td
          (le_refl _) (by omega)
          (by rw [show car (cons ra rd st2).2.mem (st2.hp - 2) = ra from hwa]; exact hca2)
          (by rw [show cdr (cons ra rd st2).2.mem (st2.hp - 2) = rd from hwd]; exact hcd2)
        have hc1 : (cons ra rd st2).1 = st2.hp - 2 := rfl
        have hc2 : (cons ra rd st2).2.hp = st2.hp - 2 := rfl
        rw [hc1, hc2]
        exact hpair

/-- After the slide, the copied cells decode to the original shape at the
displaced handles. -/
theorem CopyRel_decodes (t : Sexp) :
    ∀ (mem M : Int → Int) (off lo hi r : Int),
      CopyRel mem off lo hi r t → hi + off ≤ 0 →
      (∀ i, lo + off ≤ i → i < hi + off → M i = mem (i - off)) →
      Decodes M (lo + off) r t := by
  induction t with
  | atom a =>
    intro mem M off lo hi r hc _ _
    cases hc with
    | atom _ ha => exact .atom a ha
  | pair ta td iha ihd =>
    intro mem M off lo hi r hc hhi hag
    cases hc with
    | pair h2 _ _ hl hh hca hcd =>
      refine .pair (h2 + off) ta td (by omega) (by omega) ?_ ?_
      · have hM : car M (h2 + off) = car mem h2 := by
          show M (h2 + off) = mem h2
          rw [hag (h2 + off) (by omega) (by omega)]
          congr 1
          ring
        rw [hM]
        exact iha mem M off lo hi _ hca hhi hag
      · have hM : cdr M (h2 + off) = cdr mem h2 := by
          show M (h2 + off + 1) = mem (h2 + 1)
          rw [hag (h2 + off + 1) (by omega) (by omega)]
          congr 1
          ring
        rw [hM]
        exact ihd mem M off lo hi _ hcd hhi hag

/-- The atom printer reads only the symbol region (non-negative indices), so
it is insensitive to arenas that agree there. -/
theorem print_atom_congr : ∀ (n : Nat) (mem mem' : Int → Int),
    (∀ i, 0 ≤ i → mem' i = mem i) → ∀ o, 0 ≤ o →
    print_atom n mem o = print_atom n mem' o := by
  intro n
  induction n with
  | zero => intro mem mem' _ o _; rfl
  | succ n ih =>
    intro mem mem' hag o ho
    simp only [print_atom]
    rw [hag o ho, ih mem mem' hag (o + 1) (by omega)]

theorem Decodes_atom_inv (mem : Int → Int) (lo o a : Int)
    (h : Decodes mem lo o (.atom a)) : o = a ∧ 0 ≤ a := by
  cases h
  exact ⟨rfl, by assumption⟩

theorem Decodes_pair_inv (mem : Int → Int) (lo o : Int) (ta td : Sexp)
    (h : Decodes mem lo o (.pair ta td)) :
    lo ≤ o ∧ o < 0 ∧ Decodes mem lo (car mem o) ta ∧
      Decodes mem lo (cdr mem o) td := by
  cases h
  exact ⟨by assumption, by assumption, by assumption, by assumption⟩

/-- The printer's characters depend only on the decoded shape and the symbol
region: two handles decoding to the same shape in arenas agreeing at
non-negative indices print identically, at every fuel. -/
theorem print_congr_all : ∀ (n : Nat) (mem mem' : Int → Int),
    (∀ i, 0 ≤ i → mem' i = mem i) →
    (∀ (t : Sexp) (lo lo' o o' : Int), Decodes mem lo o t → Decodes mem' lo' o' t →
       print_object n mem o = print_object n mem' o') ∧
    (∀ (ta td : Sexp) (lo lo' o o' : Int),
       Decodes mem lo o (.pair ta td) → Decodes mem' lo' o' (.pair ta td) →
       print_list n mem o = print_list n mem' o') ∧
    (∀ (td : Sexp) (lo lo' o o' : Int),
       Decodes mem lo (cdr mem o) td → Decodes mem' lo' (cdr mem' o') td →
       print_tail n mem o = print_tail n mem' o') := by
  intro n
  induction n with
  | zero =>
    intro mem mem' _
    exact ⟨by intros; rfl, by intros; rfl, by intros; rfl⟩
  | succ n ih =>
    intro mem mem' hag
    obtain ⟨ihP, ihL, ihT⟩ := ih mem mem' hag
    refine ⟨?_, ?_, ?_⟩
    · intro t lo lo' o o' hd hd'
      cases t with
      | atom a =>
        obtain ⟨ho, ha⟩ := Decodes_atom_inv mem lo o a hd
        obtain ⟨ho', _⟩ := Decodes_atom_inv mem' lo' o' a hd'
        rw [ho, ho']
        simp only [print_object]
        rw [if_neg (by omega), if_neg (by omega)]
        exact print_atom_congr n mem mem' hag a ha
      | pair ta td =>
        obtain ⟨hl, hneg, hca, hcd⟩ := Decodes_pair_inv mem lo o ta td hd
        obtain ⟨hl', hneg', hca', hcd'⟩ := Decodes_pair_inv mem' lo' o' ta td hd'
        simp only [print_object]
        rw [if_pos hneg, if_pos hneg']
        exact ihL ta td lo lo' o o' hd hd'
    · intro ta td lo lo' o o' hd hd'
      obtain ⟨hl, hneg, hca, hcd⟩ := Decodes_pair_inv mem lo o ta td hd
      obtain ⟨hl', hneg', hca', hcd'⟩ := Decodes_pair_inv mem' lo' o' ta td hd'
      simp only [print_list]
      rw [ihP ta lo lo' (car mem o) (car mem' o') hca hca',
          ihT td lo lo' o o' hcd hcd']
    · intro td lo lo' o o' hcd hcd'
      cases td with
      | atom a =>
        obtain ⟨hda, ha⟩ := Decodes_atom_inv mem lo (cdr mem o) a hcd
        obtain ⟨hda', _⟩ := Decodes_atom_inv mem' lo' (cdr mem' o') a hcd'
        by_cases ha0 : a = 0
        · subst ha0
          simp only [print_tail]
          rw [hda, hda', if_pos rfl, if_pos rfl]
        · simp only [print_tail]
          rw [hda, hda', if_neg ha0, if_neg ha0,
              if_neg (by omega : ¬ a < 0), if_neg (by omega : ¬ a < 0),
              ihP (.atom a) lo lo' a a (Decodes.atom a ha) (Decodes.atom a ha)]
      | pair tda tdd =>
        obtain ⟨hl, hneg, hca2, hcd2⟩ := Decodes_pair_inv mem lo (cdr mem o) tda tdd hcd
        obtain ⟨hl', hneg', hca2', hcd2'⟩ :=
          Decodes_pair_inv mem' lo' (cdr mem' o') tda tdd hcd'
        simp only [print_tail]
        rw [if_neg (show ¬ cdr mem o = 0 from by omega),
            if_neg (show ¬ cdr mem' o' = 0 from by omega),
            if_pos hneg, if_pos hneg',
            ihP tda lo lo' (car mem (cdr mem o)) (car mem' (cdr mem' o')) hca2 hca2',
            ihT tdd lo lo' (cdr mem o) (cdr mem' o') hcd2 hcd2']

/-- Claim C1: the per-eval collection protocol of `eval` — the recursive
`gc` copy with the top-level pre-mark `0`, followed by the word-by-word
slide and the cursor reset — succeeds on any result that decodes to a shape
from cells allocated during the evaluation; afterwards the relocated result
decodes to the same shape, prints the same characters at every fuel as the
original result did before collection, and the heap cursor is exactly two
words per pair of the shape below the pre-mark — a function of the shape
alone, independent of any transient allocations in the arena. -/
theorem gc_preservation (t : Sexp) (n : Nat) (r : Int) (st : St)
    (hd : Decodes st.mem st.hp r t) (hhp : st.hp ≤ 0) (hn : sexpDepth t < n) :
    ∃ r2 st2, collect n 0 r st = some (r2, st2) ∧
      st2.hp = -(2 * (sexpSize t : Int)) ∧
      Decodes st2.mem st2.hp r2 t ∧
      (∀ k : Nat, print_object k st2.mem r2 = print_object k st.mem r) ∧
      st2.out = st.out := by
  obtain ⟨r2, st1, hgc, hhp1, hout1, hfr1, hcr1⟩ := gc_spec t n r (0 - st.hp) st hd hn
  have hs1le : st1.hp ≤ st.hp := by rw [hhp1]; omega
  have hcast : ((st.hp - st1.hp).toNat : Int) = st.hp - st1.hp :=
    Int.toNat_of_nonneg (by omega)
  have hcol : collect n 0 r st =
      some (r2, ⟨slideLoop (st.hp - st1.hp).toNat 0 st.hp st1.mem,
                 0 - (st.hp - st1.hp), st1.out⟩) := by
    show (match gc n r 0 (0 - st.hp) st with
          | none => none
          | some (r3, st3) =>
            some (r3, St.mk (slideLoop (st.hp - st3.hp).toNat 0 st.hp st3.mem)
                       (0 - (st.hp - st3.hp)) st3.out)) = _
    rw [hgc]
  have hM : ∀ i, slideLoop (st.hp - st1.hp).toNat 0 st.hp st1.mem i =
      if st1.hp - st.hp ≤ i ∧ i < 0 then st1.mem (i + st.hp) else st1.mem i := by
    intro i
    rw [slideLoop_eq (st.hp - st1.hp).toNat 0 st.hp st1.mem hhp i, hcast]
    by_cases hc : st1.hp - st.hp ≤ i ∧ i < 0
    · rw [if_pos (by omega), if_pos hc]
      congr 1
      ring
    · rw [if_neg (by omega), if_neg hc]
  have hag2 : ∀ i, st1.hp + (0 - st.hp) ≤ i → i < st.hp + (0 - st.hp) →
      slideLoop (st.hp - st1.hp).toNat 0 st.hp st1.mem i
        = st1.mem (i - (0 - st.hp)) := by
    intro i h1 h2
    rw [hM i, if_pos (by omega)]
    congr 1
    ring
  have hdec2 : Decodes (slideLoop (st.hp - st1.hp).toNat 0 st.hp st1.mem)
      (st1.hp - st.hp) r2 t := by
    have h0 : st1.hp + (0 - st.hp) = st1.hp - st.hp := by ring
    have hdec0 := CopyRel_decodes t st1.mem
      (slideLoop (st.hp - st1.hp).toNat 0 st.hp st1.mem)
      (0 - st.hp) st1.hp st.hp r2 hcr1 (by omega) hag2
    rw [h0] at hdec0
    exact hdec0
  have hagp : ∀ i, 0 ≤ i →
      st.mem i = slideLoop (st.hp - st1.hp).toNat 0 st.hp st1.mem i := by
    intro i hi
    rw [hM i, if_neg (by omega), hfr1 i (by omega)]
  refine ⟨r2, ⟨slideLoop (st.hp - st1.hp).toNat 0 st.hp st1.mem,
               0 - (st.hp - st1.hp), st1.out⟩, hcol, ?_, ?_, ?_, ?_⟩
  · show 0 - (st.hp - st1.hp) = -(2 * (sexpSize t : Int))
    rw [hhp1]
    ring
  · show Decodes (slideLoop (st.hp - st1.hp).toNat 0 st.hp st1.mem)
      (0 - (st.hp - st1.hp)) r2 t
    have h0 : 0 - (st.hp - st1.hp) = st1.hp - st.hp := by ring
    rw [h0]
    exact hdec2
  · intro k
    exact (print_congr_all k (slideLoop (st.hp - st1.hp).toNat 0 st.hp st1.mem)
      st.mem hagp).1 t (st1.hp - st.hp) st.hp r2 r hdec2 hd
  · exact hout1

/-- Witness for C1: collecting the result `(T)` (the pair at `-2` with car
`T` and cdr `NIL`) out of an arena also holding a transient garbage cell at
`-4` relocates it to the pre-mark, with the cursor at `-2`, the same decoded
shape, and the same printed characters. -/
theorem gc_preservation_wit :
    Decodes gcSt.mem gcSt.hp (-2) (.pair (.atom 4) (.atom 0)) ∧ gcSt.hp ≤ 0 ∧
    (∃ r2 st2, collect 2 0 (-2) gcSt = some (r2, st2) ∧
      st2.hp = -(2 * (sexpSize (Sexp.pair (.atom 4) (.atom 0)) : Int)) ∧
      Decodes st2.mem st2.hp r2 (.pair (.atom 4) (.atom 0)) ∧
      (∀ k : Nat, print_object k st2.mem r2 = print_object k gcSt.mem (-2)) ∧
      st2.out = gcSt.out) := by
  have hdec : Decodes gcSt.mem gcSt.hp (-2) (.pair (.atom 4) (.atom 0)) := by
    refine Decodes.pair (-2) (.atom 4) (.atom 0) (by decide) (by decide) ?_ ?_
    · have h1 : car gcSt.mem (-2) = 4 := by decide
      rw [h1]
      exact Decodes.atom 4 (by decide)
    · have h1 : cdr gcSt.mem (-2) = 0 := by decide
      rw [h1]
      exact Decodes.atom 0 (by decide)
  exact ⟨hdec, by decide,
         gc_preservation (.pair (.atom 4) (.atom 0)) 2 (-2) gcSt hdec
           (by decide) (by decide)⟩

/-- Witness for C4: interning the token `A` twice over the built-in region
returns equal handles. -/
theorem intern_identity_wit :
    (∀ e ∈ builtinEntries, TokenOk e) ∧ TokenOk [65] ∧
    ((intern_symbol (concatEntries builtinEntries) [65]).1 =
       (intern_symbol ((intern_symbol (concatEntries builtinEntries) [65]).2) [65]).1 ↔
     ([65] : List Int) = [65]) :=
  ⟨by decide, by decide,
   intern_identity builtinEntries [65] [65] (by decide) ⟨[], by decide⟩
     (by decide) (by decide)⟩

end SectorLisp
